import Mathlib

/-!
Verification of the Watch repository (a filesystem watcher that reruns a
command after a quiescence delay).  The definitions below are a shallow
embedding of the Go source: paths are lists of characters, `time.Time`
values are naturals, channels and the select loops become explicit step
functions over small state machines, and OS interaction (stat, readdir,
Wait4) is passed in as explicit oracle data.
-/

namespace Watch

/-- Paths are Go strings, embedded as lists of characters. -/
abbrev Path := List Char

/-! ## Go standard library: path.Clean, path.Dir, path.Join

`modTime` and `watchDir` in the source use `path.Dir` and `path.Join`,
which are defined in terms of `path.Clean`.  The functions below embed
the Go standard library implementations (lexical cleaning with a write
cursor `out.w` and a `dotdot` barrier). -/

/-- Embeds the backtracking loop of the `..` case of Go `path.Clean`:
`out.w--; for out.w > dotdot && out.index(out.w) != '/' { out.w-- }`.
The argument is the already-decremented write cursor; the result is the
final cursor. -/
def backW (o : Path) (dd : Nat) : Nat → Nat
  | 0 => 0
  | w + 1 => if dd < w + 1 ∧ o[w + 1]? ≠ some '/' then backW o dd w else w + 1

theorem dropWhile_length_le (p : Char → Bool) : ∀ l : Path, (l.dropWhile p).length ≤ l.length := by
  intro l
  induction l with
  | nil => simp [List.dropWhile]
  | cons a l ih =>
    simp only [List.dropWhile_cons]
    split
    · exact Nat.le_succ_of_le ih
    · simp

/-- Embeds the main `for r < n` loop of Go `path.Clean`.  `out` is the
written output (Go `out.s[:out.w]`), `dd` is `dotdot`, and the list
argument is the unread remainder `path[r:]`. -/
def cleanLoop (rooted : Bool) (out : Path) (dd : Nat) (l : Path) : Path :=
  match l with
  | [] => out
  | c :: rest =>
    if c = '/' then
      -- empty path element
      cleanLoop rooted out dd rest
    else if c = '.' ∧ (rest = [] ∨ rest.head? = some '/') then
      -- . element
      cleanLoop rooted out dd rest
    else if c = '.' ∧ rest.head? = some '.' ∧ (rest.tail = [] ∨ rest.tail.head? = some '/') then
      -- .. element: remove to last /
      if dd < out.length then
        cleanLoop rooted (out.take (backW out dd (out.length - 1))) dd rest.tail
      else if rooted then
        cleanLoop rooted out dd rest.tail
      else
        -- cannot backtrack, but not rooted, so append .. element
        let out1 := if out.length ≠ 0 then out ++ ['/', '.', '.'] else ['.', '.']
        cleanLoop rooted out1 out1.length rest.tail
    else
      -- real path element: add slash if needed, then copy the element
      let out1 :=
        if (rooted = true ∧ out.length ≠ 1) ∨ (rooted = false ∧ out.length ≠ 0)
        then out ++ ['/'] else out
      cleanLoop rooted (out1 ++ c :: rest.takeWhile (fun a => a != '/')) dd
        (rest.dropWhile (fun a => a != '/'))
termination_by l.length
decreasing_by
  · simp
  · simp
  · simp [List.length_take]
    omega
  · simp
    omega
  · simp
    omega
  · simp
    have := dropWhile_length_le (fun a => a != '/') rest
    omega

/-- Embeds Go `path.Clean`. -/
def clean (p : Path) : Path :=
  match p with
  | [] => ['.']
  | c :: rest =>
    let res := if c = '/' then cleanLoop true ['/'] 1 rest else cleanLoop false [] 0 (c :: rest)
    if res = [] then ['.'] else res

/-- The prefix `path[:i+1]` where `i = strings.LastIndex(path, "/")`, as
used by Go `path.Split`; empty when the path has no slash. -/
def dirPart (p : Path) : Path := (p.reverse.dropWhile (fun a => a != '/')).reverse

/-- Embeds Go `path.Dir`: `dir, _ := Split(path); return Clean(dir)`. -/
def dir (p : Path) : Path := clean (dirPart p)

/-- Embeds Go `path.Join(a, b)` as used by `watchDir`:
empty elements are skipped, the rest joined with a slash, then cleaned. -/
def joinP (a b : Path) : Path :=
  if a = [] then (if b = [] then [] else clean b)
  else clean (a ++ '/' :: b)

/-! ## Length bounds for `clean`, and termination of the `path.Dir` chain -/

/-- One when the list ends with a slash, zero otherwise; the extra slack
available to `cleanLoop` on input ending in a separator. -/
def slk (l : Path) : Nat := if l.getLast? = some '/' then 1 else 0

theorem backW_le (o : Path) (dd : Nat) : ∀ w, backW o dd w ≤ w := by
  intro w
  induction w with
  | zero => simp [backW]
  | succ w ih =>
    simp only [backW]
    split
    · exact Nat.le_trans ih (Nat.le_succ w)
    · exact Nat.le_refl _

theorem slk_le_one (l : Path) : slk l ≤ 1 := by
  unfold slk; split <;> simp

theorem slk_nil : slk ([] : Path) = 0 := by simp [slk]

theorem slk_cons_of_ne_nil (a : Char) (l : Path) (h : l ≠ []) : slk (a :: l) = slk l := by
  match l, h with
  | b :: t, _ => simp [slk, List.getLast?_cons_cons]

theorem slk_append_of_ne_nil (l₁ l₂ : Path) (h : l₂ ≠ []) : slk (l₁ ++ l₂) = slk l₂ := by
  simp [slk, List.getLast?_append_of_ne_nil _ h]

theorem getLast?_some_mem {l : Path} {a : Char} (h : l.getLast? = some a) : a ∈ l := by
  have hx : a ∈ l.getLast? := h
  rcases List.mem_getLast?_eq_getLast hx with ⟨hne, heq⟩
  exact heq ▸ List.getLast_mem hne

theorem dropWhile_head_false (p : Char → Bool) :
    ∀ l : Path, l.dropWhile p = [] ∨ ∃ a t, l.dropWhile p = a :: t ∧ p a = false := by
  intro l
  induction l with
  | nil => left; simp [List.dropWhile]
  | cons a l ih =>
    simp only [List.dropWhile_cons]
    by_cases hp : p a
    · simpa [hp] using ih
    · right; exact ⟨a, l, by simp [hp], by simpa using hp⟩

theorem slk_cons_cons_dot (c : Char) (rs : Path) : slk (c :: '.' :: rs) ≤ slk rs := by
  cases rs with
  | nil => simp [slk]
  | cons r t =>
    rw [slk_cons_of_ne_nil _ _ (by simp), slk_cons_of_ne_nil _ _ (by simp)]

/-- Main length invariant of the `path.Clean` loop: the write cursor never
runs ahead of the read cursor (`out.w ≤ r` in the Go source), so the output
is no longer than the input; a trailing separator buys one extra unit. -/
theorem cleanLoop_len (rooted : Bool) :
    ∀ (n : Nat) (l out : Path) (dd k : Nat),
      l.length ≤ n →
      out.length ≤ k →
      (out.length = k →
        l = [] ∨ l.head? = some '/' ∨ (rooted = false ∧ out = []) ∨
          (rooted = true ∧ out.length = 1)) →
      (cleanLoop rooted out dd l).length + slk l ≤ k + l.length := by
  intro n
  induction n with
  | zero =>
    intro l out dd k hl h1 _
    have hnil : l = [] := by
      cases l with
      | nil => rfl
      | cons a t => simp at hl
    subst hnil
    simpa [cleanLoop, slk_nil] using h1
  | succ n ih =>
    intro l out dd k hl h1 h2
    cases l with
    | nil => simpa [cleanLoop, slk_nil] using h1
    | cons c rest =>
      have hrl : rest.length ≤ n := by simpa using hl
      simp only [cleanLoop]
      split_ifs with hc hdot hdd hpop hroot hne hsep
      · -- c = '/'
        cases rest with
        | nil =>
          have hs : slk [c] = 1 := by simp [slk, hc]
          simp only [cleanLoop, List.length_cons, List.length_nil]
          omega
        | cons r rs =>
          have hrec := ih (r :: rs) out dd (k + 1) hrl (by omega)
            (fun he => absurd he (by omega))
          have hs : slk (c :: r :: rs) = slk (r :: rs) :=
            slk_cons_of_ne_nil _ _ (by simp)
          simp only [List.length_cons] at hrec ⊢
          omega
      · -- . element
        cases rest with
        | nil =>
          have hs : slk [c] = 0 := by simp [slk, hdot.1]
          simp only [cleanLoop, List.length_cons, List.length_nil]
          omega
        | cons r rs =>
          have hrec := ih (r :: rs) out dd (k + 1) hrl (by omega)
            (fun he => absurd he (by omega))
          have hs : slk (c :: r :: rs) = slk (r :: rs) :=
            slk_cons_of_ne_nil _ _ (by simp)
          simp only [List.length_cons] at hrec ⊢
          omega
      · -- .. element, backtrack
        obtain ⟨hcd, hr1, hguard⟩ := hdd
        cases rest with
        | nil => simp at hr1
        | cons r rs =>
          have hrd : r = '.' := by simpa using hr1
          subst hrd
          simp only [List.tail_cons] at hguard
          have hwle : backW out dd (out.length - 1) ≤ out.length - 1 := backW_le _ _ _
          have hlen' : (out.take (backW out dd (out.length - 1))).length ≤ out.length - 1 := by
            simp [List.length_take]
            omega
          have hrec := ih rs (out.take (backW out dd (out.length - 1))) dd (k + 2)
            (by simp at hrl; omega) (by omega) (fun he => absurd he (by omega))
          have hs : slk (c :: '.' :: rs) ≤ slk rs := slk_cons_cons_dot c rs
          simp only [List.length_cons, List.tail_cons] at hrec ⊢
          omega
      · -- .. element, rooted with nothing to pop
        obtain ⟨hcd, hr1, hguard⟩ := hdd
        cases rest with
        | nil => simp at hr1
        | cons r rs =>
          have hrd : r = '.' := by simpa using hr1
          subst hrd
          have hrec := ih rs out dd (k + 2) (by simp at hrl; omega) (by omega)
            (fun he => absurd he (by omega))
          have hs : slk (c :: '.' :: rs) ≤ slk rs := slk_cons_cons_dot c rs
          simp only [List.length_cons, List.tail_cons] at hrec ⊢
          omega
      · -- .. element, not rooted, append onto nonempty out
        obtain ⟨hcd, hr1, hguard⟩ := hdd
        cases rest with
        | nil => simp at hr1
        | cons r rs =>
          have hrd : r = '.' := by simpa using hr1
          subst hrd
          simp only [List.tail_cons] at hguard
          have hrooted : rooted = false := by
            cases rooted
            · rfl
            · exact absurd rfl hroot
          have hkne : out.length ≠ k := by
            intro he
            rcases h2 he with h | h | ⟨_, h⟩ | ⟨h, _⟩
            · simp at h
            · simp only [List.head?_cons, Option.some.injEq] at h
              exact hc h
            · exact hne (by simp [h])
            · rw [hrooted] at h; simp at h
          have hrec := ih rs (out ++ ['/', '.', '.']) (out ++ ['/', '.', '.']).length (k + 2)
            (by simp at hrl; omega)
            (by simp; omega)
            (fun _ => by
              rcases hguard with h | h
              · exact Or.inl h
              · exact Or.inr (Or.inl h))
          have hs : slk (c :: '.' :: rs) ≤ slk rs := slk_cons_cons_dot c rs
          simp only [List.length_cons, List.length_append, List.length_nil,
            List.tail_cons] at hrec ⊢
          omega
      · -- .. element, not rooted, out empty: start a .. run
        obtain ⟨hcd, hr1, hguard⟩ := hdd
        cases rest with
        | nil => simp at hr1
        | cons r rs =>
          have hrd : r = '.' := by simpa using hr1
          subst hrd
          simp only [List.tail_cons] at hguard
          have hrec := ih rs ['.', '.'] (['.', '.'] : Path).length (k + 2)
            (by simp at hrl; omega)
            (by simp only [List.length_cons, List.length_nil]; omega)
            (fun _ => by
              rcases hguard with h | h
              · exact Or.inl h
              · exact Or.inr (Or.inl h))
          have hs : slk (c :: '.' :: rs) ≤ slk rs := slk_cons_cons_dot c rs
          simp only [List.length_cons, List.length_nil, List.tail_cons] at hrec ⊢
          omega
      · -- real path element, separator prepended
        have hseg := List.takeWhile_append_dropWhile (p := fun a => a != '/') (l := rest)
        have hlenr : (rest.takeWhile (fun a => a != '/')).length +
            (rest.dropWhile (fun a => a != '/')).length = rest.length := by
          rw [← List.length_append, hseg]
        have hdl : (rest.dropWhile (fun a => a != '/')).length ≤ n := by omega
        have hslk : slk (c :: rest) ≤ slk (rest.dropWhile (fun a => a != '/')) := by
          rcases dropWhile_head_false (fun a => a != '/') rest with hdn | ⟨a, t, hdeq, hpa⟩
          · have hall : ∀ x ∈ rest, (x != '/') = true := List.dropWhile_eq_nil_iff.mp hdn
            have : slk (c :: rest) = 0 := by
              unfold slk
              split
              · next hlast =>
                  exfalso
                  rcases List.mem_cons.mp (getLast?_some_mem hlast) with hm | hm
                  · exact hc hm.symm
                  · have := hall _ hm
                    simp at this
              · rfl
            omega
          · have hdnn : rest.dropWhile (fun a => a != '/') ≠ [] := by simp [hdeq]
            have hrnn : rest ≠ [] := by
              intro hr
              rw [hr] at hdeq
              simp [List.dropWhile] at hdeq
            have h3 : slk rest = slk (rest.dropWhile (fun a => a != '/')) := by
              conv_lhs => rw [← hseg]
              exact slk_append_of_ne_nil _ _ hdnn
            rw [slk_cons_of_ne_nil _ _ hrnn, h3]
        have hhead : (rest.dropWhile (fun a => a != '/')) = [] ∨
            (rest.dropWhile (fun a => a != '/')).head? = some '/' := by
          rcases dropWhile_head_false (fun a => a != '/') rest with hdn | ⟨a, t, hdeq, hpa⟩
          · exact Or.inl hdn
          · right
            have ha : a = '/' := by simpa using hpa
            rw [hdeq, ha]
            rfl
        have hkne : out.length ≠ k := by
          intro he
          rcases h2 he with h | h | ⟨hf, h⟩ | ⟨ht, h⟩
          · simp at h
          · simp only [List.head?_cons, Option.some.injEq] at h
            exact hc h
          · rcases hsep with ⟨hr, _⟩ | ⟨_, hlo⟩
            · rw [hf] at hr; simp at hr
            · exact hlo (by simp [h])
          · rcases hsep with ⟨_, hl1⟩ | ⟨hr, _⟩
            · exact hl1 h
            · rw [ht] at hr; simp at hr
        have hrec := ih (rest.dropWhile (fun a => a != '/'))
          ((out ++ ['/']) ++ c :: rest.takeWhile (fun a => a != '/')) dd
          (k + 1 + (rest.takeWhile (fun a => a != '/')).length)
          hdl
          (by simp only [List.length_append, List.length_cons, List.length_nil]; omega)
          (fun _ => by
            rcases hhead with h | h
            · exact Or.inl h
            · exact Or.inr (Or.inl h))
        simp only [List.length_cons, List.length_append, List.length_nil] at hrec ⊢
        omega
      · -- real path element, no separator
        have hseg := List.takeWhile_append_dropWhile (p := fun a => a != '/') (l := rest)
        have hlenr : (rest.takeWhile (fun a => a != '/')).length +
            (rest.dropWhile (fun a => a != '/')).length = rest.length := by
          rw [← List.length_append, hseg]
        have hdl : (rest.dropWhile (fun a => a != '/')).length ≤ n := by omega
        have hslk : slk (c :: rest) ≤ slk (rest.dropWhile (fun a => a != '/')) := by
          rcases dropWhile_head_false (fun a => a != '/') rest with hdn | ⟨a, t, hdeq, hpa⟩
          · have hall : ∀ x ∈ rest, (x != '/') = true := List.dropWhile_eq_nil_iff.mp hdn
            have : slk (c :: rest) = 0 := by
              unfold slk
              split
              · next hlast =>
                  exfalso
                  rcases List.mem_cons.mp (getLast?_some_mem hlast) with hm | hm
                  · exact hc hm.symm
                  · have := hall _ hm
                    simp at this
              · rfl
            omega
          · have hdnn : rest.dropWhile (fun a => a != '/') ≠ [] := by simp [hdeq]
            have hrnn : rest ≠ [] := by
              intro hr
              rw [hr] at hdeq
              simp [List.dropWhile] at hdeq
            have h3 : slk rest = slk (rest.dropWhile (fun a => a != '/')) := by
              conv_lhs => rw [← hseg]
              exact slk_append_of_ne_nil _ _ hdnn
            rw [slk_cons_of_ne_nil _ _ hrnn, h3]
        have hhead : (rest.dropWhile (fun a => a != '/')) = [] ∨
            (rest.dropWhile (fun a => a != '/')).head? = some '/' := by
          rcases dropWhile_head_false (fun a => a != '/') rest with hdn | ⟨a, t, hdeq, hpa⟩
          · exact Or.inl hdn
          · right
            have ha : a = '/' := by simpa using hpa
            rw [hdeq, ha]
            rfl
        have hrec := ih (rest.dropWhile (fun a => a != '/'))
          (out ++ c :: rest.takeWhile (fun a => a != '/')) dd
          (k + 1 + (rest.takeWhile (fun a => a != '/')).length)
          hdl
          (by simp only [List.length_append, List.length_cons]; omega)
          (fun _ => by
            rcases hhead with h | h
            · exact Or.inl h
            · exact Or.inr (Or.inl h))
        simp only [List.length_cons, List.length_append, List.length_nil] at hrec ⊢
        omega

/-- On input that ends with a separator and is not the root itself, the
cleaned result is strictly shorter than the input. -/
theorem clean_len_of_last_slash (p : Path) (hlast : p.getLast? = some '/')
    (hne : p ≠ ['/']) : (clean p).length + 1 ≤ p.length := by
  cases p with
  | nil => simp at hlast
  | cons c rest =>
    by_cases hc : c = '/'
    · subst hc
      cases rest with
      | nil => exact absurd rfl hne
      | cons r rs =>
        have hrlast : (r :: rs).getLast? = some '/' := by
          rwa [List.getLast?_cons_cons] at hlast
        have hslk : slk (r :: rs) = 1 := by simp [slk, hrlast]
        have hb := cleanLoop_len true (r :: rs).length (r :: rs) ['/'] 1 1
          (Nat.le_refl _) (by simp)
          (fun _ => Or.inr (Or.inr (Or.inr ⟨rfl, by simp⟩)))
        rw [hslk] at hb
        have hcl : clean ('/' :: r :: rs) =
            if cleanLoop true ['/'] 1 (r :: rs) = [] then ['.']
            else cleanLoop true ['/'] 1 (r :: rs) := by
          simp [clean]
        rw [hcl]
        split
        · simp only [List.length_cons, List.length_nil]
          omega
        · simp only [List.length_cons] at hb ⊢
          omega
    · have hrnn : rest ≠ [] := by
        intro h
        rw [h] at hlast
        simp only [List.getLast?_singleton, Option.some.injEq] at hlast
        exact hc hlast
      have hslk : slk (c :: rest) = 1 := by simp [slk, hlast]
      have hb := cleanLoop_len false (c :: rest).length (c :: rest) [] 0 0
        (Nat.le_refl _) (by simp) (fun _ => Or.inr (Or.inr (Or.inl ⟨rfl, rfl⟩)))
      rw [hslk] at hb
      have hcl : clean (c :: rest) =
          if cleanLoop false [] 0 (c :: rest) = [] then ['.']
          else cleanLoop false [] 0 (c :: rest) := by
        simp [clean, hc]
      rw [hcl]
      have hln : rest.length ≥ 1 := by
        cases rest with
        | nil => exact absurd rfl hrnn
        | cons a t => simp
      split
      · simp only [List.length_cons, List.length_nil]
        omega
      · simp only [List.length_cons, List.length_nil] at hb ⊢
        omega

theorem dirPart_length_le (p : Path) : (dirPart p).length ≤ p.length := by
  unfold dirPart
  calc ((p.reverse.dropWhile (fun a => a != '/')).reverse).length
      = (p.reverse.dropWhile (fun a => a != '/')).length := by rw [List.length_reverse]
    _ ≤ p.reverse.length := dropWhile_length_le _ _
    _ = p.length := by rw [List.length_reverse]

theorem dirPart_getLast (p : Path) (h : dirPart p ≠ []) :
    (dirPart p).getLast? = some '/' := by
  unfold dirPart at h ⊢
  rw [List.getLast?_reverse]
  rcases dropWhile_head_false (fun a => a != '/') p.reverse with hdn | ⟨a, t, hdeq, hpa⟩
  · rw [hdn] at h
    simp at h
  · have ha : a = '/' := by simpa using hpa
    rw [hdeq, ha]
    rfl

theorem dirPart_single (c : Char) : dirPart [c] = if c = '/' then ['/'] else [] := by
  unfold dirPart
  by_cases h : c = '/'
  · subst h
    rfl
  · have hb : (c != '/') = true := by simpa using h
    simp [List.dropWhile_cons, hb, h]

theorem dirPart_nil_of_eq_nil (p : Path) (h : p = []) : dirPart p = [] := by
  subst h
  rfl

/-- Termination measure for the `path.Dir` chain used by `modTime`. -/
def pMeasure (p : Path) : Nat := if p = ['.'] then 0 else p.length + 1

/-- Each non-trivial step of the parent chain strictly decreases the
measure; this is the heart of `modTime` termination. -/
theorem dir_lt (p : Path) (h : dir p ≠ p) : pMeasure (dir p) < pMeasure p := by
  have hdot : p ≠ ['.'] → 0 < pMeasure p := by
    intro hp
    unfold pMeasure
    simp [hp]
  by_cases hdp : dirPart p = []
  · have hd : dir p = ['.'] := by
      unfold dir
      rw [hdp]
      rfl
    rw [hd] at h ⊢
    have hp : p ≠ ['.'] := fun he => h he.symm
    have : pMeasure (['.'] : Path) = 0 := by unfold pMeasure; simp
    rw [this]
    exact hdot hp
  · have hpd : p ≠ ['.'] := by
      intro he
      rw [he] at hdp
      exact hdp rfl
    have hlast := dirPart_getLast p hdp
    have hple := dirPart_length_le p
    by_cases hroot : dirPart p = ['/']
    · have hd : dir p = ['/'] := by
        unfold dir
        rw [hroot]
        simp [clean, cleanLoop]
      rw [hd] at h ⊢
      have hslash : p ≠ ['/'] := fun he => h he.symm
      have hpne : p ≠ [] := by
        intro he
        exact hdp (dirPart_nil_of_eq_nil p he)
      have hlen2 : 2 ≤ p.length := by
        rcases p with _ | ⟨c, _ | ⟨d, t⟩⟩
        · exact absurd rfl hpne
        · -- single character: dirPart [c] = ['/'] forces c = '/'
          exfalso
          rw [dirPart_single c] at hroot
          by_cases hcs : c = '/'
          · exact hslash (by rw [hcs])
          · rw [if_neg hcs] at hroot
            exact absurd hroot (by simp)
        · simp only [List.length_cons]
          omega
      unfold pMeasure
      rw [if_neg (by decide : ¬(['/'] : Path) = ['.'])]
      rw [if_neg hpd]
      simp only [List.length_cons, List.length_nil]
      omega
    · have hstep := clean_len_of_last_slash (dirPart p) hlast hroot
      have hd : (dir p).length + 1 ≤ p.length := by
        unfold dir
        omega
      unfold pMeasure
      by_cases h1 : dir p = ['.']
      · rw [if_pos h1, if_neg hpd]
        omega
      · rw [if_neg h1, if_neg hpd]
        omega

/-! ## The filesystem oracle and `modTime` -/

/-- Result of `os.Stat` on a path: found (with modification time and
directory flag), not existing, or some other error. -/
inductive StatR where
  | found (mtime : Nat) (isdir : Bool)
  | notExist
  | errS (msg : Path)
deriving DecidableEq

/-- The resolution error built by `modTime` when the parent chain bottoms
out: `errors.New("Failed to find directory for " + p)`. -/
def resMsg (p : Path) : Path := ("Failed to find directory for ").data ++ p

/-- Embeds `modTime` from the source: stat the path; on not-exist recurse
on `path.Dir`, failing when the parent equals the path; other stat errors
propagate; otherwise return the modification time. -/
def modTime (fs : Path → StatR) (p : Path) : Except Path Nat :=
  match fs p with
  | .notExist =>
    if h : dir p = p then .error (resMsg p)
    else modTime fs (dir p)
  | .errS e => .error e
  | .found m _ => .ok m
termination_by pMeasure p
decreasing_by
  exact dir_lt p h

/-- Fuel-indexed variant of `modTime`; `none` means the fuel ran out.
Used to state that the recursion terminates within a bounded number of
steps. -/
def modTimeF (fs : Path → StatR) : Nat → Path → Option (Except Path Nat)
  | 0, _ => none
  | fuel + 1, p =>
    match fs p with
    | .notExist =>
      if dir p = p then some (.error (resMsg p))
      else modTimeF fs fuel (dir p)
    | .errS e => some (.error e)
    | .found m _ => some (.ok m)

theorem pMeasure_le (p : Path) : pMeasure p ≤ p.length + 1 := by
  unfold pMeasure
  split <;> omega

theorem modTime_found (fs : Path → StatR) (p : Path) (m : Nat) (d : Bool)
    (h : fs p = .found m d) : modTime fs p = .ok m := by
  rw [modTime, h]

theorem modTime_notExist_step (fs : Path → StatR) (p : Path)
    (h : fs p = .notExist) (hne : dir p ≠ p) :
    modTime fs p = modTime fs (dir p) := by
  rw [modTime, h]
  simp [hne]

theorem modTime_notExist_root (fs : Path → StatR) (p : Path)
    (h : fs p = .notExist) (heq : dir p = p) :
    modTime fs p = .error (resMsg p) := by
  rw [modTime, h]
  simp [heq]

/-- The fuel version agrees with `modTime` whenever the fuel exceeds the
measure of the path. -/
theorem modTimeF_agrees (fs : Path → StatR) :
    ∀ (fuel : Nat) (p : Path), pMeasure p < fuel →
      modTimeF fs fuel p = some (modTime fs p) := by
  intro fuel
  induction fuel with
  | zero => intro p hp; omega
  | succ fuel ih =>
    intro p hp
    rw [modTimeF, modTime]
    cases hfs : fs p with
    | notExist =>
      by_cases heq : dir p = p
      · simp [heq]
      · have hlt := dir_lt p heq
        simp only [if_neg heq, dif_neg heq]
        exact ih (dir p) (by omega)
    | errS e => rfl
    | found m d => rfl

/-- The parent chain reaches a fixed point of `path.Dir` in at most
`pMeasure p` steps. -/
theorem dir_chain_fixed :
    ∀ (n : Nat) (p : Path), pMeasure p ≤ n →
      ∃ k ≤ n, dir^[k + 1] p = dir^[k] p := by
  intro n
  induction n with
  | zero =>
    intro p hp
    refine ⟨0, Nat.le_refl 0, ?_⟩
    simp only [Function.iterate_one, Function.iterate_zero, id]
    by_contra hne
    have := dir_lt p hne
    omega
  | succ n ih =>
    intro p hp
    by_cases heq : dir p = p
    · exact ⟨0, Nat.zero_le _, by simpa using heq⟩
    · have hlt := dir_lt p heq
      obtain ⟨k, hk, hfix⟩ := ih (dir p) (by omega)
      refine ⟨k + 1, by omega, ?_⟩
      rw [Function.iterate_succ_apply, Function.iterate_succ_apply]
      exact hfix

/-- All elements of the parent chain from `p` (up to the fixed point) fail
to exist; the condition under which `modTime` returns its resolution
error. -/
def chainGone (fs : Path → StatR) (p : Path) (k : Nat) : Prop :=
  (∀ j ≤ k, fs (dir^[j] p) = .notExist) ∧ dir (dir^[k] p) = dir^[k] p

/-- Characterization of the resolution error: assuming stat only answers
found/not-exist (no exotic errors), `modTime` fails exactly when the whole
parent chain is missing up to the `path.Dir` fixed point. -/
theorem modTime_error_iff (fs : Path → StatR)
    (hwf : ∀ q, ∀ e, fs q ≠ .errS e) :
    ∀ (n : Nat) (p : Path), pMeasure p ≤ n →
      ((∃ e, modTime fs p = .error e) ↔ ∃ k, chainGone fs p k) := by
  intro n
  induction n with
  | zero =>
    intro p hp
    have hfix : dir p = p := by
      by_contra hne
      have := dir_lt p hne
      omega
    constructor
    · intro he
      cases hfs : fs p with
      | notExist =>
        exact ⟨0, fun j hj => by simpa [Nat.le_zero.mp hj] using hfs, by simpa using hfix⟩
      | errS e => exact absurd hfs (hwf p e)
      | found m d =>
        obtain ⟨e, he⟩ := he
        rw [modTime_found fs p m d hfs] at he
        exact absurd he (by simp)
    · rintro ⟨k, hgone, _⟩
      have h0 : fs p = .notExist := by simpa using hgone 0 (Nat.zero_le k)
      exact ⟨resMsg p, modTime_notExist_root fs p h0 hfix⟩
  | succ n ih =>
    intro p hp
    cases hfs : fs p with
    | errS e => exact absurd hfs (hwf p e)
    | found m d =>
      constructor
      · intro he
        obtain ⟨e, he⟩ := he
        rw [modTime_found fs p m d hfs] at he
        exact absurd he (by simp)
      · rintro ⟨k, hgone, _⟩
        have h0 : fs p = .notExist := by simpa using hgone 0 (Nat.zero_le k)
        rw [hfs] at h0
        exact absurd h0 (by simp)
    | notExist =>
      by_cases heq : dir p = p
      · constructor
        · intro _
          exact ⟨0, fun j hj => by simpa [Nat.le_zero.mp hj] using hfs, by simpa using heq⟩
        · intro _
          exact ⟨resMsg p, modTime_notExist_root fs p hfs heq⟩
      · have hlt := dir_lt p heq
        have hrec := ih (dir p) (by omega)
        rw [modTime_notExist_step fs p hfs heq]
        constructor
        · intro he
          obtain ⟨k, hgone, hfix⟩ := hrec.mp he
          refine ⟨k + 1, ?_, ?_⟩
          · intro j hj
            cases j with
            | zero => simpa using hfs
            | succ i =>
              rw [Function.iterate_succ_apply]
              exact hgone i (by omega)
          · rw [Function.iterate_succ_apply]
            exact hfix
        · rintro ⟨k, hgone, hfix⟩
          cases k with
          | zero =>
            simp only [Function.iterate_zero, id] at hfix
            exact absurd hfix heq
          | succ i =>
            apply hrec.mpr
            refine ⟨i, ?_, ?_⟩
            · intro j hj
              have := hgone (j + 1) (by omega)
              rwa [Function.iterate_succ_apply] at this
            · have := hfix
              rwa [Function.iterate_succ_apply] at this

/-! ## The coordination loop (`main`, part_001 lines 96-115)

`time.Time` is embedded as `Nat`.  The loop owns `lastRun`, `lastChange`
and the single `time.Timer`; the timer is a single field holding the
pending deadline (`none` when it has fired).  `run(ui)` executes the
command synchronously — `redisplay` invokes the closure, which blocks in
`wait` until the child exits — and returns `time.Now()` at that point, so
a run of total elapsed time `runDur` both advances the clock and yields
`now + runDur` as the recorded run time. -/

/-- `rebuildDelay = 200 * time.Millisecond`. -/
def rebuildDelay : Nat := 200

structure MainState where
  lastRun : Nat
  lastChange : Nat
  timerDeadline : Option Nat
deriving DecidableEq

/-- The three select cases of the coordination loop: a value received from
`changes`, a tick of `ui.rerun()`, and the timer firing. -/
inductive MainEvent where
  | change (t : Nat)
  | rerun
  | timerFire
deriving DecidableEq

/-- One iteration of the `for { select { ... } }` loop.  Returns the new
state and the clock time at which the loop is next able to receive
(the clock advances by `runDur` whenever `run` is invoked, because `run`
only returns after the spawned command has been reaped). -/
def mainStep (runDur : Nat) (now : Nat) (s : MainState) : MainEvent → MainState × Nat
  | .change t =>
    ({ s with lastChange := t, timerDeadline := some (now + rebuildDelay) }, now)
  | .rerun =>
    ({ s with lastRun := now + runDur }, now + runDur)
  | .timerFire =>
    if s.lastRun < s.lastChange then
      ({ s with lastRun := now + runDur, timerDeadline := none }, now + runDur)
    else
      ({ s with timerDeadline := none }, now)

/-! ## The process controller (`wait` and `kill`, part_001 lines 142-184) -/

inductive Sig where
  | sigterm
  | sigkill
deriving DecidableEq

/-- Outcome of one `syscall.Wait4(p, &status, WNOHANG, nil)` poll. -/
inductive ReapR where
  | exited (status : Int)
  | running
  | reapErr (msg : Path)
deriving DecidableEq

/-- The two select sources inside `wait`: a timestamp received from
`killChan`, and a tick of the 5ms poll ticker (carrying the reap
outcome). -/
inductive WaitEvent where
  | killReq (t : Nat)
  | tick (r : ReapR)
deriving DecidableEq

/-- The local state of one `wait` execution: the escalation counter `n`
and the log of signals sent so far. -/
structure WaitState where
  n : Nat
  sent : List Sig
deriving DecidableEq

/-- Phase of one `wait` execution: still polling, returned with an exit
status, or aborted by `panic(err)` on a reaping error. -/
inductive WaitPhase where
  | going (s : WaitState)
  | exited (status : Int) (s : WaitState)
  | aborted (msg : Path) (s : WaitState)
deriving DecidableEq

def phaseState : WaitPhase → WaitState
  | .going s => s
  | .exited _ s => s
  | .aborted _ s => s

/-- One iteration of the `for { select { ... } }` loop in `wait`.
A kill timestamp before `start` is skipped (`continue`); otherwise the
first accepted request sends SIGTERM (`n == 0`) and later ones SIGKILL,
then `n++`.  A poll tick returns on exit, panics on a reap error, and
otherwise does nothing. -/
def waitStep (start : Nat) (ph : WaitPhase) (ev : WaitEvent) : WaitPhase :=
  match ph with
  | .going s =>
    match ev with
    | .killReq t =>
      if t < start then .going s
      else if s.n = 0 then .going ⟨s.n + 1, s.sent ++ [Sig.sigterm]⟩
      else .going ⟨s.n + 1, s.sent ++ [Sig.sigkill]⟩
    | .tick r =>
      match r with
      | .reapErr msg => .aborted msg s
      | .exited c => .exited c s
      | .running => .going s
  | done => done

/-- `wait` over a whole sequence of events, from its initial state
(`var n int`, nothing sent). -/
def waitFold (start : Nat) (ph : WaitPhase) : List WaitEvent → WaitPhase
  | [] => ph
  | ev :: evs => waitFold start (waitStep start ph ev) evs

/-- The signal log demanded by the escalation policy: one SIGTERM then
only SIGKILLs. -/
def termThenKills : Nat → List Sig
  | 0 => []
  | n + 1 => Sig.sigterm :: List.replicate n Sig.sigkill

/-- The Go error string carried by a `Wait4` failure for a vanished
process. -/
def noSuchProcessMsg : Path := ("no such process").data

def isAbort : WaitPhase → Bool
  | .aborted _ _ => true
  | _ => false

/-! ## The event normalizer and watch registry
(`sendChanges`, `watchDir`, `watch`, `isDir`, part_001 lines 208-299) -/

/-- Result of `ioutil.ReadDir`: not existing, some other error, or the
list of entry names. -/
inductive RdR where
  | notExist
  | errR (msg : Path)
  | ents (names : List Path)
deriving DecidableEq

/-- The filesystem oracle consulted by the normalizer and the registry. -/
structure FS where
  stat : Path → StatR
  readDir : Path → RdR

/-- The compiled `-x` exclusion pattern: `none` embeds a nil
`excludeRe`; `some f` embeds `excludeRe.MatchString`. -/
def matchesExcl (excl : Option (Path → Bool)) (p : Path) : Bool :=
  match excl with
  | none => false
  | some f => f p

/-- Embeds `isDir`: stat, treating not-exist as a non-directory. -/
def isDir (fs : FS) (p : Path) : Except Path Bool :=
  match fs.stat p with
  | .notExist => .ok false
  | .errS e => .error e
  | .found _ d => .ok d

/-- Embeds `watchDir`, returning the ordered list of paths registered with
the watcher (`watch(w, ...)` calls).  Children are visited first, each
excluded entry skipped before any stat, non-directories ignored, and `p`
itself is registered last.  `fuel` bounds the recursion depth (the Go
recursion is bounded by the height of the directory tree). -/
def watchDir (fs : FS) (excl : Option (Path → Bool)) : Nat → Path → List Path
  | 0, _ => []
  | fuel + 1, p =>
    match fs.readDir p with
    | .notExist => []
    | .errR _ => [p]
    | .ents names =>
      ((names.map (fun e =>
        let sub := joinP p e
        if matchesExcl excl sub then []
        else
          match isDir fs sub with
          | .error _ => []
          | .ok true => watchDir fs excl fuel sub
          | .ok false => [])).flatten) ++ [p]

/-- An ordered action performed by `sendChanges` for one event: a watch
registration or the emission of a change time on the `changes` channel. -/
inductive NAct where
  | watchReg (p : Path)
  | emit (t : Nat)
deriving DecidableEq

/-- A value received by the `sendChanges` select: a watcher error or a
raw fsnotify event (name plus whether `ev.Op` contains `Create`). -/
structure RawEvent where
  name : Path
  isCreate : Bool
deriving DecidableEq

inductive WatcherInput where
  | werr (msg : Path)
  | wev (ev : RawEvent)
deriving DecidableEq

/-- Result of one `sendChanges` iteration: `log.Fatalf` on a watcher
error, a silent or logged skip (`continue`), or a sequence of actions
ending in the emission on `changes`. -/
inductive NormRes where
  | fatal (msg : Path)
  | skip (logged : Option Path)
  | acts (as : List NAct)
deriving DecidableEq

/-- Embeds one iteration of `sendChanges`: exclusion filter first, then
`modTime` (logged skip on failure), then for creation events the `isDir`
check (logged skip on failure) and `watchDir` registration, then the
emission of the resolved time. -/
def sendChangeStep (fs : FS) (excl : Option (Path → Bool)) (fuel : Nat) :
    WatcherInput → NormRes
  | .werr m => .fatal m
  | .wev ev =>
    if matchesExcl excl ev.name then .skip none
    else
      match modTime fs.stat ev.name with
      | .error e => .skip (some e)
      | .ok t =>
        if ev.isCreate then
          match isDir fs ev.name with
          | .error e => .skip (some e)
          | .ok true =>
            .acts ((watchDir fs excl fuel ev.name).map NAct.watchReg ++ [NAct.emit t])
          | .ok false => .acts [NAct.emit t]
        else .acts [NAct.emit t]

/-! ## The run output framing (`run`, part_001 lines 117-140) -/

/-- Behavior of one spawned command: whether `cmd.Start` failed, the
chunks the command writes to the shared output (stdout and stderr are the
same writer), and the exit status reported by `wait`. -/
structure CmdBehavior where
  startErr : Option Path
  output : List Path
  exitStatus : Int
deriving DecidableEq

def newlineP : Path := ['\n']

/-- The command-echo line `strings.Join(flag.Args(), " ") + "\n"`. -/
def echoLine (args : List Path) : Path :=
  (List.intercalate [' '] args) ++ newlineP

/-- The `"exit status " + strconv.Itoa(s) + "\n"` line. -/
def exitStatusLine (s : Int) : Path :=
  ("exit status ").data ++ (toString s).data ++ newlineP

/-- Embeds the writer closure of `run`: echo line first (written before
`cmd.Start`), then on a start failure the fatal report (the process then
exits); otherwise the command's own interleaved output, the exit-status
line only when the status is non-zero, and finally the timestamp line. -/
def runWrites (args : List Path) (beh : CmdBehavior) (timestamp : Path) : List Path :=
  [echoLine args] ++
    match beh.startErr with
    | some e => [("fatal: ").data ++ e ++ newlineP]
    | none =>
      beh.output ++
        (if beh.exitStatus ≠ 0 then [exitStatusLine beh.exitStatus] else []) ++
        [timestamp ++ newlineP]

/-! ## Claim theorems -/

/-- C1, counterexample.  The claim says that on timer expiry with
`lastRun < lastChange` the loop records the run start time and keeps
accepting notifications while the run executes.  In the source, `run(ui)`
is synchronous: with a run of duration 5 starting at time 100, the loop
records 105 (the completion time) and can only receive again at 105. -/
theorem c1_counterexample :
    ¬ ((mainStep 5 100 ⟨0, 50, some 100⟩ MainEvent.timerFire).1.lastRun = 100 ∧
       (mainStep 5 100 ⟨0, 50, some 100⟩ MainEvent.timerFire).2 = 100) := by
  decide

/-- C1, amended.  On timer expiry with `lastRun < lastChange`, the loop
runs the command synchronously: `lastRun` becomes the completion time
`now + runDur`, the timer deadline is cleared, and the loop can only
receive further events from the completion time on. -/
theorem c1_timer_run_synchronous (runDur now : Nat) (s : MainState)
    (h : s.lastRun < s.lastChange) :
    mainStep runDur now s MainEvent.timerFire =
      ({ lastRun := now + runDur, lastChange := s.lastChange,
         timerDeadline := none }, now + runDur) := by
  simp [mainStep, h]

/-- C1, witness for the amended theorem at a concrete state. -/
theorem c1_witness :
    (0 : Nat) < 50 ∧
    mainStep 5 100 ⟨0, 50, some 100⟩ MainEvent.timerFire = (⟨105, 50, none⟩, 105) :=
  ⟨by decide, c1_timer_run_synchronous 5 100 ⟨0, 50, some 100⟩ (by decide)⟩

/-- C2, counterexample.  The claim says the loop sets
`lastChange = max(lastChange, event.time)`; the source performs a plain
assignment `lastChange = <-changes`, so an event timestamped 5 arriving
when `lastChange = 10` moves `lastChange` backwards to 5, not to
`max 10 5`. -/
theorem c2_counterexample :
    ¬ ((mainStep 0 0 ⟨0, 10, none⟩ (MainEvent.change 5)).1.lastChange = max 10 5) := by
  decide

/-- C2, amended.  On each change notification the loop assigns the event
time to `lastChange` unconditionally (possibly decreasing it) and re-arms
the single reusable timer to `now + 200ms`, replacing whatever deadline
was pending — the timer state is one `Option` deadline, so at most one
timer is ever pending. -/
theorem c2_change_assign_and_rearm (runDur now t : Nat) (s : MainState) :
    mainStep runDur now s (MainEvent.change t) =
      ({ lastRun := s.lastRun, lastChange := t,
         timerDeadline := some (now + rebuildDelay) }, now) := by
  simp [mainStep]

/-- Invariant of the `wait` loop: the signal log is always one SIGTERM
followed by SIGKILLs, tracked by the escalation counter. -/
theorem waitFold_sent_inv (start : Nat) :
    ∀ (evs : List WaitEvent) (ph : WaitPhase),
      (phaseState ph).sent = termThenKills (phaseState ph).n →
      (phaseState (waitFold start ph evs)).sent =
        termThenKills (phaseState (waitFold start ph evs)).n := by
  intro evs
  induction evs with
  | nil => intro ph h; simpa [waitFold] using h
  | cons ev evs ih =>
    intro ph h
    rw [waitFold]
    apply ih
    cases ph with
    | going s =>
      cases ev with
      | killReq t =>
        by_cases ht : t < start
        · simpa [waitStep, ht] using h
        · by_cases hn : s.n = 0
          · have hsent : s.sent = [] := by
              simpa [phaseState, hn, termThenKills] using h
            simp [waitStep, ht, hn, phaseState, hsent, termThenKills]
          · obtain ⟨m, hm⟩ : ∃ m, s.n = m + 1 := ⟨s.n - 1, by omega⟩
            have hsent : s.sent = Sig.sigterm :: List.replicate m Sig.sigkill := by
              simpa [phaseState, hm, termThenKills] using h
            simp [waitStep, ht, hn, phaseState, hm, hsent, termThenKills,
              List.replicate_succ']
      | tick r =>
        cases r <;> simpa [waitStep, phaseState] using h
    | exited c s => simpa [waitStep, phaseState] using h
    | aborted m s => simpa [waitStep, phaseState] using h

theorem count_termThenKills (n : Nat) :
    (termThenKills n).count Sig.sigterm ≤ 1 := by
  cases n with
  | zero => simp [termThenKills]
  | succ m =>
    simp [termThenKills, List.count_cons, List.count_replicate]

/-- C3.  Within one execution of `wait`, whatever events arrive, the
signal log is exactly one SIGTERM (for the first accepted termination
request) followed by SIGKILLs (for all later accepted requests): the
graceful signal is never sent twice. -/
theorem c3_escalation (start : Nat) (evs : List WaitEvent) :
    (phaseState (waitFold start (.going ⟨0, []⟩) evs)).sent =
      termThenKills (phaseState (waitFold start (.going ⟨0, []⟩) evs)).n ∧
    ((phaseState (waitFold start (.going ⟨0, []⟩) evs)).sent).count Sig.sigterm ≤ 1 := by
  have h := waitFold_sent_inv start evs (.going ⟨0, []⟩) (by simp [phaseState, termThenKills])
  exact ⟨h, h ▸ count_termThenKills _⟩

/-- C6, counterexample.  The claim says a "no such process" reaping error
does not abort the watcher; in the source `wait` panics on every `Wait4`
error, including exactly that one. -/
theorem c6_counterexample :
    ¬ ((isAbort (waitStep 0 (.going ⟨0, []⟩) (.tick (.reapErr noSuchProcessMsg))) = true) ↔
        noSuchProcessMsg ≠ noSuchProcessMsg) :=
  fun hiff => (hiff.mp rfl) rfl

/-- C6, amended.  Every reaping (`Wait4`) error aborts the watcher
(`panic(err)`), whether or not it is "no such process". -/
theorem c6_reap_error_always_aborts (start : Nat) (s : WaitState) (msg : Path) :
    waitStep start (.going s) (.tick (.reapErr msg)) = .aborted msg s := rfl

/-- C9.  A kill notification timestamped before the current run's start
is skipped by `wait`: no signal is sent and the escalation counter is
unchanged, so requests aimed at a previous run cannot signal this run. -/
theorem c9_stale_kill_ignored (start t : Nat) (s : WaitState) (h : t < start) :
    waitStep start (.going s) (.killReq t) = .going s := by
  simp [waitStep, h]

/-- C9, witness at a concrete stale request. -/
theorem c9_witness :
    (3 : Nat) < 5 ∧ waitStep 5 (.going ⟨0, []⟩) (.killReq 3) = .going ⟨0, []⟩ :=
  ⟨by decide, c9_stale_kill_ignored 5 3 ⟨0, []⟩ (by decide)⟩

/-- C4.  `modTime` returns the modification time of an existing path,
recurses on the parent directory of a missing one, and (over a filesystem
whose stat answers only found/not-exist) fails exactly when the whole
parent chain up to the `path.Dir` fixed point is missing; such a failure
is logged and dropped by `sendChanges` (`.skip`), never fatal. -/
theorem c4_modTime_resolution (fs : FS) (p : Path)
    (hwf : ∀ q e, fs.stat q ≠ StatR.errS e) :
    (∀ m d, fs.stat p = .found m d → modTime fs.stat p = .ok m) ∧
    (fs.stat p = .notExist → dir p ≠ p → modTime fs.stat p = modTime fs.stat (dir p)) ∧
    ((∃ e, modTime fs.stat p = .error e) ↔ ∃ k, chainGone fs.stat p k) ∧
    (∀ (ev : RawEvent) (excl : Option (Path → Bool)) (fuel : Nat) (e : Path),
      matchesExcl excl ev.name = false →
      modTime fs.stat ev.name = .error e →
      sendChangeStep fs excl fuel (.wev ev) = .skip (some e)) := by
  refine ⟨fun m d h => modTime_found fs.stat p m d h,
    fun h hne => modTime_notExist_step fs.stat p h hne,
    modTime_error_iff fs.stat hwf (pMeasure p) p (Nat.le_refl _),
    fun ev excl fuel e hx hm => ?_⟩
  simp [sendChangeStep, hx, hm]

/-- A tiny concrete filesystem: `/a` is a file with mtime 7, `/` a
directory with mtime 1, everything else missing. -/
def sampleStat : Path → StatR := fun p =>
  if p = ['/', 'a'] then .found 7 false
  else if p = ['/'] then .found 1 true
  else .notExist

def sampleFS : FS := ⟨sampleStat, fun _ => .notExist⟩

/-- C4, witness at `sampleFS` and path `/a`. -/
theorem c4_witness :
    (∀ q e, sampleFS.stat q ≠ StatR.errS e) ∧
    modTime sampleFS.stat ['/', 'a'] = .ok 7 := by
  have hw : ∀ q e, sampleFS.stat q ≠ StatR.errS e := by
    intro q e
    simp only [sampleFS, sampleStat]
    split_ifs <;> simp
  exact ⟨hw, (c4_modTime_resolution sampleFS ['/', 'a'] hw).1 7 false rfl⟩

/-- C10.  `modTime` terminates on every input: the fuel-indexed variant
already agrees with it at fuel `|p| + 2`, because the parent chain
reaches a fixed point of `path.Dir` after at most `|p| + 1` steps. -/
theorem c10_modTime_terminates (fs : Path → StatR) (p : Path) :
    modTimeF fs (p.length + 2) p = some (modTime fs p) ∧
    ∃ k ≤ p.length + 1, dir^[k + 1] p = dir^[k] p :=
  ⟨modTimeF_agrees fs (p.length + 2) p (by have := pMeasure_le p; omega),
   dir_chain_fixed (p.length + 1) p (pMeasure_le p)⟩

/-- Helper for C5: registration only ever records non-excluded paths,
given that the root itself is not excluded. -/
theorem watchDir_not_excluded (fs : FS) (excl : Option (Path → Bool)) :
    ∀ (fuel : Nat) (p : Path), matchesExcl excl p = false →
      ∀ q ∈ watchDir fs excl fuel p, matchesExcl excl q = false := by
  intro fuel
  induction fuel with
  | zero =>
    intro p hp q hq
    simp [watchDir] at hq
  | succ fuel ih =>
    intro p hp q hq
    rw [watchDir] at hq
    cases hrd : fs.readDir p with
    | notExist =>
      rw [hrd] at hq
      simp at hq
    | errR m =>
      rw [hrd] at hq
      simp at hq
      subst hq
      exact hp
    | ents names =>
      rw [hrd] at hq
      rw [List.mem_append] at hq
      rcases hq with hq | hq
      · rw [List.mem_flatten] at hq
        obtain ⟨l, hl, hql⟩ := hq
        rw [List.mem_map] at hl
        obtain ⟨e, he, hfe⟩ := hl
        subst hfe
        simp only at hql
        by_cases hm : matchesExcl excl (joinP p e) = true
        · rw [if_pos hm] at hql
          simp at hql
        · have hmf : matchesExcl excl (joinP p e) = false := by simpa using hm
          rw [if_neg hm] at hql
          cases hdir : isDir fs (joinP p e) with
          | error e2 =>
            rw [hdir] at hql
            simp at hql
          | ok b =>
            rw [hdir] at hql
            cases b with
            | true => exact ih (joinP p e) hmf q hql
            | false => simp at hql
      · simp at hq
        subst hq
        exact hp

/-- Helper for C5: registration never even consults the filesystem below
an excluded path — two filesystems agreeing outside the excluded set
register identical trees. -/
theorem watchDir_agree (excl : Option (Path → Bool)) :
    ∀ (fuel : Nat) (fs fs2 : FS) (p : Path),
      (∀ q, matchesExcl excl q = false →
        fs.stat q = fs2.stat q ∧ fs.readDir q = fs2.readDir q) →
      matchesExcl excl p = false →
      watchDir fs excl fuel p = watchDir fs2 excl fuel p := by
  intro fuel
  induction fuel with
  | zero => intro fs fs2 p hag hp; rfl
  | succ fuel ih =>
    intro fs fs2 p hag hp
    rw [watchDir, watchDir, ← (hag p hp).2]
    cases hrd : fs.readDir p with
    | notExist => rfl
    | errR m => rfl
    | ents names =>
      dsimp only
      congr 1
      congr 1
      apply List.map_congr_left
      intro e he
      dsimp only
      by_cases hm : matchesExcl excl (joinP p e) = true
      · rw [if_pos hm, if_pos hm]
      · have hmf : matchesExcl excl (joinP p e) = false := by simpa using hm
        rw [if_neg hm, if_neg hm]
        have hid : isDir fs (joinP p e) = isDir fs2 (joinP p e) := by
          unfold isDir
          rw [(hag (joinP p e) hmf).1]
        rw [← hid]
        cases hdir : isDir fs (joinP p e) with
        | error e2 => rfl
        | ok b =>
          cases b with
          | true => exact ih fs fs2 (joinP p e) hag hmf
          | false => rfl

/-- C5.  An excluded path produces no change notification: the normalizer
discards matching events with only a debug log, registration records only
non-excluded paths, and registration never looks below an excluded path
(two filesystems agreeing outside the excluded set register the same
tree). -/
theorem c5_exclusion (fs : FS) (excl : Option (Path → Bool)) :
    (∀ (ev : RawEvent) (fuel : Nat), matchesExcl excl ev.name = true →
      sendChangeStep fs excl fuel (.wev ev) = .skip none) ∧
    (∀ (fuel : Nat) (p : Path), matchesExcl excl p = false →
      ∀ q ∈ watchDir fs excl fuel p, matchesExcl excl q = false) ∧
    (∀ (fs2 : FS) (fuel : Nat) (p : Path),
      (∀ q, matchesExcl excl q = false →
        fs.stat q = fs2.stat q ∧ fs.readDir q = fs2.readDir q) →
      matchesExcl excl p = false →
      watchDir fs excl fuel p = watchDir fs2 excl fuel p) :=
  ⟨fun ev fuel hx => by simp [sendChangeStep, hx],
   watchDir_not_excluded fs excl,
   fun fs2 fuel p hag hp => watchDir_agree excl fuel fs fs2 p hag hp⟩

/-- The exclusion pattern used by the C5 witness: exactly the path
`/x`. -/
def exclW : Option (Path → Bool) := some (fun q => q == ['/', 'x'])

/-- Witness filesystem: listing `/x` claims children, everything else
errors on listing (so registration watches just the root). -/
def fsE : FS :=
  ⟨fun _ => StatR.notExist,
   fun q => if q = ['/', 'x'] then RdR.ents [['j']] else RdR.errR []⟩

/-- Same as `fsE` outside the excluded path `/x`, different below it. -/
def fsF : FS :=
  ⟨fun _ => StatR.notExist,
   fun q => if q = ['/', 'x'] then RdR.notExist else RdR.errR []⟩

/-- C5, witness: the excluded event is dropped silently; the registered
set for the unexcluded root avoids excluded paths; and registration does
not depend on the filesystem below the excluded path. -/
theorem c5_witness :
    matchesExcl exclW ['/', 'x'] = true ∧
    sendChangeStep fsE exclW 1 (.wev ⟨['/', 'x'], false⟩) = .skip none ∧
    matchesExcl exclW ['/'] = false ∧
    (['/'] : Path) ∈ watchDir fsE exclW 1 ['/'] ∧
    matchesExcl exclW ['/'] = false ∧
    watchDir fsE exclW 1 ['/'] = watchDir fsF exclW 1 ['/'] := by
  have hag : ∀ q, matchesExcl exclW q = false →
      fsE.stat q = fsF.stat q ∧ fsE.readDir q = fsF.readDir q := by
    intro q hq
    have hne : q ≠ ['/', 'x'] := by
      simpa [exclW, matchesExcl] using hq
    exact ⟨rfl, by simp [fsE, fsF, hne]⟩
  refine ⟨by decide, (c5_exclusion fsE exclW).1 ⟨['/', 'x'], false⟩ 1 (by decide),
    by decide, by decide,
    (c5_exclusion fsE exclW).2.1 1 ['/'] (by decide) ['/'] (by decide),
    (c5_exclusion fsE exclW).2.2 fsF 1 ['/'] hag (by decide)⟩

/-- C7.  In a run whose command starts successfully, the displayed output
is: the command-echo line, then the command's own interleaved output
verbatim, then an exit-status line exactly when the status is non-zero,
then the completion timestamp line. -/
theorem c7_run_output_framing (args : List Path) (out : List Path) (s : Int) (ts : Path) :
    runWrites args ⟨none, out, s⟩ ts =
      [echoLine args] ++ out ++ (if s ≠ 0 then [exitStatusLine s] else []) ++
        [ts ++ newlineP] ∧
    (s = 0 → runWrites args ⟨none, out, s⟩ ts =
      [echoLine args] ++ out ++ [ts ++ newlineP]) ∧
    (s ≠ 0 → runWrites args ⟨none, out, s⟩ ts =
      [echoLine args] ++ out ++ [exitStatusLine s, ts ++ newlineP]) := by
  refine ⟨by simp [runWrites], fun h0 => by simp [runWrites, h0],
    fun hn => by simp [runWrites, hn]⟩

/-- C7, witness: `echo hi` exiting 0 shows the echo line, the output and
the timestamp line, with no exit-status line. -/
theorem c7_witness :
    (0 : Int) = 0 ∧
    runWrites [['e', 'c', 'h', 'o']] ⟨none, [['h', 'i', '\n']], 0⟩ ['T'] =
      [echoLine [['e', 'c', 'h', 'o']]] ++ [['h', 'i', '\n']] ++ [['T'] ++ newlineP] :=
  ⟨rfl, (c7_run_output_framing [['e', 'c', 'h', 'o']] [['h', 'i', '\n']] 0 ['T']).2.1 rfl⟩

/-- C8.  For a non-excluded creation event whose path is now a directory
and whose time resolves, the normalizer's actions are exactly the
`watchDir` registrations of the created directory's subtree followed by
the emission of the change time: the whole subtree is registered before
the event goes downstream. -/
theorem c8_create_dir_registers_subtree (fs : FS) (excl : Option (Path → Bool))
    (fuel : Nat) (ev : RawEvent) (t : Nat)
    (hx : matchesExcl excl ev.name = false)
    (hcr : ev.isCreate = true)
    (hm : modTime fs.stat ev.name = .ok t)
    (hd : isDir fs ev.name = .ok true) :
    sendChangeStep fs excl fuel (.wev ev) =
      .acts ((watchDir fs excl fuel ev.name).map NAct.watchReg ++ [NAct.emit t]) := by
  simp [sendChangeStep, hx, hm, hcr, hd]

/-- Witness filesystem for C8: `/d` is an empty directory. -/
def fs8 : FS :=
  ⟨fun p => if p = ['/', 'd'] then .found 5 true else .notExist,
   fun p => if p = ['/', 'd'] then .ents [] else .notExist⟩

/-- C8, witness: the creation of directory `/d` produces its registration
followed by the emission. -/
theorem c8_witness :
    matchesExcl none (['/', 'd'] : Path) = false ∧
    (⟨['/', 'd'], true⟩ : RawEvent).isCreate = true ∧
    modTime fs8.stat ['/', 'd'] = .ok 5 ∧
    isDir fs8 ['/', 'd'] = .ok true ∧
    sendChangeStep fs8 none 1 (.wev ⟨['/', 'd'], true⟩) =
      .acts [NAct.watchReg ['/', 'd'], NAct.emit 5] := by
  have hm : modTime fs8.stat ['/', 'd'] = .ok 5 := modTime_found _ _ 5 true rfl
  exact ⟨rfl, rfl, hm, rfl,
    c8_create_dir_registers_subtree fs8 none 1 ⟨['/', 'd'], true⟩ 5 rfl rfl hm rfl⟩

end Watch
